import Mathlib

/-!
Shallow embedding of the string-analyzer service (src/main.rs) and proofs
about its specification claims.

Modelling conventions:
* Rust `usize` values are represented as `Nat`; where the source can
  overflow or underflow a `usize`, the wrap-around is made explicit with
  `% 2 ^ 64` (release-profile two's-complement wrapping semantics).
* The `HashMap` store is modelled as an association list with distinct
  keys; iteration order is unspecified in the source, and no claim
  depends on it.
* The SHA-256 digest provided by the external `sha2` crate is modelled
  by an executable FIPS 180-4 implementation over `Nat` bytes.
* Rust's Unicode `to_lowercase`, `char::is_alphabetic` and
  `char::is_whitespace` are modelled by their ASCII restrictions; every
  claim exercises only ASCII-relevant behaviour of these primitives.
-/

/-- ASCII lowercasing of one character; models `char` lowercasing as used by
`str::to_lowercase` on the ASCII inputs relevant to the claims. -/
def lowerChar (c : Char) : Char :=
  if 'A' ≤ c ∧ c ≤ 'Z' then Char.ofNat (c.toNat + 32) else c

/-- Models Rust `str::to_lowercase` (restricted to ASCII case mapping). -/
def lowerString (s : String) : String :=
  String.mk (s.data.map lowerChar)

/-- Accumulator-style splitter behind `tokenize`; models the behaviour of
Rust `str::split_whitespace` (runs of non-whitespace, separators dropped). -/
def wsTokens : List Char → List Char → List String
  | [], acc => if acc.isEmpty then [] else [String.mk acc.reverse]
  | c :: cs, acc =>
    if c.isWhitespace then
      if acc.isEmpty then wsTokens cs [] else String.mk acc.reverse :: wsTokens cs []
    else wsTokens cs (c :: acc)

/-- Models `s.split_whitespace().collect::<Vec<_>>()`. -/
def tokenize (s : String) : List String :=
  wsTokens s.data []

/-- UTF-8 encoding of a single scalar value, as a list of byte values;
models how Rust stores `String` contents (`s.as_bytes()`). -/
def utf8EncodeChar (c : Char) : List Nat :=
  let n := c.toNat
  if n < 0x80 then [n]
  else if n < 0x800 then [0xC0 + n / 64, 0x80 + n % 64]
  else if n < 0x10000 then
    [0xE0 + n / 4096, 0x80 + (n / 64) % 64, 0x80 + n % 64]
  else
    [0xF0 + n / 262144, 0x80 + (n / 4096) % 64, 0x80 + (n / 64) % 64, 0x80 + n % 64]

/-- The raw byte sequence of a string (Rust `s.as_bytes()`). -/
def utf8Bytes (s : String) : List Nat :=
  (s.data.map utf8EncodeChar).flatten

/-- Byte length of a string: Rust `s.len()`. -/
def byteStrLen (s : String) : Nat :=
  (utf8Bytes s).length

/-- Lowercase hexadecimal digit for a nibble value. -/
def hexDigit (n : Nat) : Char :=
  "0123456789abcdef".data.getD n '0'

/-- Two lowercase hex digits of one byte; models `format!("\x7b:02x\x7d", b)`
for a `u8` value (always `b < 256`). -/
def hexByte (b : Nat) : List Char :=
  [hexDigit (b / 16), hexDigit (b % 16)]

/-- Hex string of a byte sequence; models
`digest.iter().map(|b| format!("\x7b:02x\x7d", b)).collect::<String>()`. -/
def bytesToHex (bs : List Nat) : String :=
  String.mk ((bs.map hexByte).flatten)

/-- Value of a lowercase-hex digit character, if it is one. -/
def decodeHexChar (c : Char) : Option Nat :=
  (List.range 16).find? (fun n => hexDigit n == c)

/-- Decoder for a lowercase-hex byte string (two digits per byte); used to
state that the source's hash string faithfully encodes the digest. -/
def hexDecodeBytes : List Char → Option (List Nat)
  | [] => some []
  | c1 :: c2 :: rest =>
    match decodeHexChar c1, decodeHexChar c2, hexDecodeBytes rest with
    | some hi, some lo, some tl => some ((hi * 16 + lo) :: tl)
    | _, _, _ => none
  | [_] => none

/-- Character class of the sixteen lowercase hexadecimal digits. -/
def isLowerHexChar (c : Char) : Bool :=
  "0123456789abcdef".data.contains c

/-! ### SHA-256 (FIPS 180-4), modelling the external `sha2` crate -/

/-- Right rotation of a 32-bit word represented as a `Nat` below `2 ^ 32`. -/
def rotr32 (n x : Nat) : Nat :=
  (x / 2 ^ n + (x % 2 ^ n) * 2 ^ (32 - n)) % 2 ^ 32

/-- Bitwise complement on 32 bits. -/
def not32 (x : Nat) : Nat :=
  Nat.xor x (2 ^ 32 - 1)

/-- SHA-256 choice function. -/
def ch32 (x y z : Nat) : Nat :=
  Nat.xor (Nat.land x y) (Nat.land (not32 x) z)

/-- SHA-256 majority function. -/
def maj32 (x y z : Nat) : Nat :=
  Nat.xor (Nat.xor (Nat.land x y) (Nat.land x z)) (Nat.land y z)

/-- SHA-256 big sigma-0. -/
def bigSig0 (x : Nat) : Nat :=
  Nat.xor (Nat.xor (rotr32 2 x) (rotr32 13 x)) (rotr32 22 x)

/-- SHA-256 big sigma-1. -/
def bigSig1 (x : Nat) : Nat :=
  Nat.xor (Nat.xor (rotr32 6 x) (rotr32 11 x)) (rotr32 25 x)

/-- SHA-256 small sigma-0. -/
def smallSig0 (x : Nat) : Nat :=
  Nat.xor (Nat.xor (rotr32 7 x) (rotr32 18 x)) (x / 2 ^ 3)

/-- SHA-256 small sigma-1. -/
def smallSig1 (x : Nat) : Nat :=
  Nat.xor (Nat.xor (rotr32 17 x) (rotr32 19 x)) (x / 2 ^ 10)

/-- The 64 SHA-256 round constants. -/
def K256 : List Nat :=
  [
    1116352408, 1899447441, 3049323471, 3921009573,
    961987163, 1508970993, 2453635748, 2870763221,
    3624381080, 310598401, 607225278, 1426881987,
    1925078388, 2162078206, 2614888103, 3248222580,
    3835390401, 4022224774, 264347078, 604807628,
    770255983, 1249150122, 1555081692, 1996064986,
    2554220882, 2821834349, 2952996808, 3210313671,
    3336571891, 3584528711, 113926993, 338241895,
    666307205, 773529912, 1294757372, 1396182291,
    1695183700, 1986661051, 2177026350, 2456956037,
    2730485921, 2820302411, 3259730800, 3345764771,
    3516065817, 3600352804, 4094571909, 275423344,
    430227734, 506948616, 659060556, 883997877,
    958139571, 1322822218, 1537002063, 1747873779,
    1955562222, 2024104815, 2227730452, 2361852424,
    2428436474, 2756734187, 3204031479, 3329325298]

/-- Working state of the SHA-256 compression function (eight 32-bit words). -/
structure Hash8 where
  a : Nat
  b : Nat
  c : Nat
  d : Nat
  e : Nat
  f : Nat
  g : Nat
  h : Nat
deriving Repr, DecidableEq

/-- Initial SHA-256 hash value. -/
def sha256Init : Hash8 :=
  { a := 1779033703,
    b := 3144134277,
    c := 1013904242,
    d := 2773480762,
    e := 1359893119,
    f := 2600822924,
    g := 528734635,
    h := 1541459225 }

/-- Extends the sixteen block words to the 64-entry message schedule;
the accumulator keeps the most recent word first. -/
def scheduleAux : Nat → List Nat → List Nat
  | 0, acc => acc
  | k + 1, acc =>
    let wt := (smallSig1 (acc.getD 1 0) + acc.getD 6 0 + smallSig0 (acc.getD 14 0)
               + acc.getD 15 0) % 2 ^ 32
    scheduleAux k (wt :: acc)

/-- Full 64-word message schedule of one block. -/
def schedule (block16 : List Nat) : List Nat :=
  (scheduleAux 48 block16.reverse).reverse

/-- One SHA-256 round, consuming a (round constant, schedule word) pair. -/
def round32 (st : Hash8) (kw : Nat × Nat) : Hash8 :=
  let t1 := (st.h + bigSig1 st.e + ch32 st.e st.f st.g + kw.1 + kw.2) % 2 ^ 32
  let t2 := (bigSig0 st.a + maj32 st.a st.b st.c) % 2 ^ 32
  { a := (t1 + t2) % 2 ^ 32, b := st.a, c := st.b, d := st.c,
    e := (st.d + t1) % 2 ^ 32, f := st.e, g := st.f, h := st.g }

/-- Compression of one 16-word block into the running hash value. -/
def processBlock (st : Hash8) (block16 : List Nat) : Hash8 :=
  let fin := (K256.zip (schedule block16)).foldl round32 st
  { a := (st.a + fin.a) % 2 ^ 32, b := (st.b + fin.b) % 2 ^ 32,
    c := (st.c + fin.c) % 2 ^ 32, d := (st.d + fin.d) % 2 ^ 32,
    e := (st.e + fin.e) % 2 ^ 32, f := (st.f + fin.f) % 2 ^ 32,
    g := (st.g + fin.g) % 2 ^ 32, h := (st.h + fin.h) % 2 ^ 32 }

/-- Big-endian 8-byte encoding of the message bit length. -/
def lenBytes64 (bits : Nat) : List Nat :=
  [bits / 2 ^ 56 % 256, bits / 2 ^ 48 % 256, bits / 2 ^ 40 % 256, bits / 2 ^ 32 % 256,
   bits / 2 ^ 24 % 256, bits / 2 ^ 16 % 256, bits / 2 ^ 8 % 256, bits % 256]

/-- FIPS 180-4 padding: byte 0x80, zero fill, 8-byte big-endian bit length. -/
def padMessage (msg : List Nat) : List Nat :=
  let len := msg.length
  let zeros := (64 - (len + 9) % 64) % 64
  msg ++ 0x80 :: List.replicate zeros 0 ++ lenBytes64 ((len * 8) % 2 ^ 64)

/-- Groups a byte list into big-endian 32-bit words. -/
def toWords : List Nat → List Nat
  | b0 :: b1 :: b2 :: b3 :: rest =>
    (b0 * 2 ^ 24 + b1 * 2 ^ 16 + b2 * 2 ^ 8 + b3) :: toWords rest
  | _ => []

/-- Splits a padded byte list into 16-word blocks. -/
def toBlocks (l : List Nat) : List (List Nat) :=
  if h : l = [] then []
  else toWords (l.take 64) :: toBlocks (l.drop 64)
termination_by l.length
decreasing_by
  simp only [List.length_drop]
  cases l with
  | nil => exact absurd rfl h
  | cons x xs => simp only [List.length_cons]; omega

/-- Big-endian bytes of one 32-bit word. -/
def wordBytes (w : Nat) : List Nat :=
  [w / 2 ^ 24 % 256, w / 2 ^ 16 % 256, w / 2 ^ 8 % 256, w % 256]

/-- The 32 digest bytes of a final hash value. -/
def digestBytes (st : Hash8) : List Nat :=
  wordBytes st.a ++ wordBytes st.b ++ wordBytes st.c ++ wordBytes st.d ++
  wordBytes st.e ++ wordBytes st.f ++ wordBytes st.g ++ wordBytes st.h

/-- SHA-256 digest of a byte sequence, as 32 byte values; models
`Sha256::digest` of the `sha2` crate. -/
def sha256 (msg : List Nat) : List Nat :=
  digestBytes ((toBlocks (padMessage msg)).foldl processBlock sha256Init)

/-- Lowercase-hex SHA-256 of a string's bytes: the content address used
throughout the source (`Sha256::digest(s.as_bytes())` formatted with
`format!("\x7b:02x\x7d", b)` per byte). -/
def sha256Hex (s : String) : String :=
  bytesToHex (sha256 (utf8Bytes s))

/-! ### Data model (src/main.rs structs) -/

/-- Derived properties of a stored string (struct `StringProperties`).
The source's `HashMap<char, usize>` frequency map is modelled as an
association list (iteration order is not observable in any claim). -/
structure StringProperties where
  length : Nat
  is_palindrome : Bool
  unique_characters : Nat
  word_count : Nat
  sha256_hash : String
  character_frequency_map : List (Char × Nat)
deriving Repr, DecidableEq

/-- A stored record (struct `StringData`); `created_at` is the wall-clock
timestamp supplied by the environment, modelled as a `Nat`. -/
structure StringData where
  id : String
  value : String
  properties : StringProperties
  created_at : Nat
deriving Repr, DecidableEq

/-- Structured filter (struct `FilterQuery`); all fields optional. -/
structure FilterQuery where
  is_palindrome : Option Bool := none
  min_length : Option Nat := none
  max_length : Option Nat := none
  word_count : Option Nat := none
  contains_character : Option String := none
deriving Repr, DecidableEq

/-- HTTP status outcomes the handlers produce. -/
inductive StatusCode where
  | created
  | noContent
  | conflict
  | notFound
  | badRequest
deriving Repr, DecidableEq

/-- Response of the structured list endpoint (struct `StringsResponse`). -/
structure StringsResponse where
  data : List StringData
  count : Nat
  filters_applied : FilterQuery
deriving Repr, DecidableEq

/-- Echo of a natural-language query (struct `InterpretedQuery`). -/
structure InterpretedQuery where
  original : String
  parsed_filters : FilterQuery
deriving Repr, DecidableEq

/-- Response of the natural-language endpoint
(struct `NaturalLanguageResponse`). -/
structure NaturalLanguageResponse where
  data : List StringData
  count : Nat
  interpreted_query : InterpretedQuery
deriving Repr, DecidableEq

/-- The in-memory store: `HashMap<String, StringData>` modelled as an
association list from id to record. -/
abbrev Store := List (String × StringData)

/-! ### Analyzer (`analyze_string`) -/

/-- Models Rust `char::is_alphabetic` (ASCII restriction; see header). -/
def charIsAlphabetic (c : Char) : Bool :=
  c.isAlpha

/-- One step of `*map.entry(c).or_insert(0) += 1` on the assoc-list model
of the frequency `HashMap`. -/
def bumpFreq (m : List (Char × Nat)) (c : Char) : List (Char × Nat) :=
  if m.any (fun p => p.1 == c) then
    m.map (fun p => if p.1 == c then (p.1, p.2 + 1) else p)
  else m ++ [(c, 1)]

/-- Frequency map of the alphabetic characters of `s`. -/
def freqMap (s : String) : List (Char × Nat) :=
  (s.data.filter charIsAlphabetic).foldl bumpFreq []

/-- The analyzer, translated from `fn analyze_string` line by line. -/
def analyze_string (s : String) : StringProperties :=
  let length := byteStrLen s
  let lc := (lowerString s).data
  let is_palindrome := lc == lc.reverse
  let unique_characters := (s.data.filter charIsAlphabetic).dedup.length
  let word_count := (tokenize s).length
  let sha256_hash := sha256Hex s
  { length := length, is_palindrome := is_palindrome,
    unique_characters := unique_characters, word_count := word_count,
    sha256_hash := sha256_hash, character_frequency_map := freqMap s }

/-! ### Store handlers -/

/-- Models `fn create_string`: analyzes the value, derives the id, fails
with Conflict if the key is present, otherwise inserts. Returns the new
store state together with the created record. -/
def create_string (db : Store) (value : String) (now : Nat) :
    Except StatusCode (Store × StringData) :=
  let properties := analyze_string value
  let id := properties.sha256_hash
  if db.any (fun p => p.1 == id) then
    .error .conflict
  else
    let data : StringData :=
      { id := id, value := value, properties := properties, created_at := now }
    .ok ((id, data) :: db, data)

/-- Models `fn get_string`: re-analyzes the value and looks up its id. -/
def get_string (db : Store) (value : String) : Except StatusCode StringData :=
  let properties := analyze_string value
  let id := properties.sha256_hash
  match db.find? (fun p => p.1 == id) with
  | some p => .ok p.2
  | none => .error .notFound

/-- Models `fn delete_string`: re-analyzes the value, removes its id if
present. Returns the status code together with the resulting store. -/
def delete_string (db : Store) (value : String) : StatusCode × Store :=
  let properties := analyze_string value
  let id := properties.sha256_hash
  if db.any (fun p => p.1 == id) then
    (.noContent, db.filter (fun p => ¬ p.1 == id))
  else
    (.notFound, db)

/-- The per-record matching loop body shared verbatim by
`fn get_all_strings` and `fn filter_by_natural_language`: each present
criterion must hold; a `contains_character` whose byte length is not 1 is
silently skipped inside the loop (the source's empty `if` branch). -/
def recordMatches (query : FilterQuery) (data : StringData) : Bool :=
  (match query.is_palindrome with
   | some pal => data.properties.is_palindrome == pal
   | none => true) &&
  (match query.min_length with
   | some minL => decide (data.properties.length ≥ minL)
   | none => true) &&
  (match query.max_length with
   | some maxL => decide (data.properties.length ≤ maxL)
   | none => true) &&
  (match query.word_count with
   | some wc => data.properties.word_count == wc
   | none => true) &&
  (match query.contains_character with
   | some ch =>
     if byteStrLen ch ≠ 1 then true
     else
       match ch.data with
       | c :: _ => data.value.data.any (fun c2 => c2 == c)
       | [] => true
   | none => true)

/-- Models `fn get_all_strings`: filters every record, then (after the
loop, as in the source) rejects a `contains_character` whose byte length
is not 1 with the InvalidArgument condition (HTTP 400). -/
def get_all_strings (db : Store) (query : FilterQuery) :
    Except StatusCode StringsResponse :=
  let filtered := (db.filter (fun p => recordMatches query p.2)).map (fun p => p.2)
  let count := filtered.length
  match query.contains_character with
  | some ch =>
    if byteStrLen ch ≠ 1 then .error .badRequest
    else .ok { data := filtered, count := count, filters_applied := query }
  | none => .ok { data := filtered, count := count, filters_applied := query }


/-! ### Natural-language translator (`parse_natural_language_query`) -/

/-- Models Rust `str::parse::<usize>()`: an optional leading `+`, then one
or more ASCII digits, value below `2 ^ 64` (larger values overflow and
yield `Err`). -/
def parseUsize (s : String) : Option Nat :=
  let ds := if s.data.head? = some '+' then s.data.tail else s.data
  if ds.isEmpty then none
  else if ds.all Char.isDigit then
    let n := ds.foldl (fun a c => a * 10 + (c.toNat - 48)) 0
    if n < 2 ^ 64 then some n else none
  else none

/-- The source's lookbehind index `i - 1` computed in `usize` arithmetic:
release-profile wrapping subtraction, so `0 - 1` wraps to `2 ^ 64 - 1`. -/
def wrapSub1 (i : Nat) : Nat :=
  (i + (2 ^ 64 - 1)) % 2 ^ 64

/-- The translator's scanning loop, translated branch by branch from the
`while i < words.len()` loop of `fn parse_natural_language_query`. The
source loop advances the cursor by at least one token per iteration, so
`words.length` iterations always suffice; the structural `fuel` argument
(invoked with `words.length` below) makes that termination explicit. Cursor
additions cannot overflow `usize` for any real `Vec` of tokens; the sole
underflow hazard, `words.get(i - 1)`, is modelled by `wrapSub1`. -/
def nlqLoop (words : List String) : Nat → Nat → FilterQuery → FilterQuery
  | 0, _, filters => filters
  | fuel + 1, i, filters =>
    if i < words.length then
      let w := lowerString (words.getD i "")
      if w = "all" then
        nlqLoop words fuel (i + 1) filters
      else if w = "single" then
        if i + 1 < words.length ∧ lowerString (words.getD (i + 1) "") = "word" then
          nlqLoop words fuel (i + 2) { filters with word_count := some 1 }
        else
          nlqLoop words fuel (i + 1) filters
      else if w = "palindrome" ∨ w = "palindromic" then
        match words.get? (wrapSub1 i) with
        | some prev =>
          if lowerString prev ≠ "non" then
            nlqLoop words fuel (i + 1) { filters with is_palindrome := some true }
          else
            nlqLoop words fuel (i + 1) filters
        | none =>
          nlqLoop words fuel (i + 1) { filters with is_palindrome := some true }
      else if w = "longer" then
        if i + 2 < words.length ∧ lowerString (words.getD (i + 1) "") = "than" then
          match parseUsize (words.getD (i + 2) "") with
          | some num =>
            nlqLoop words fuel (i + 3) { filters with min_length := some ((num + 1) % 2 ^ 64) }
          | none =>
            nlqLoop words fuel (i + 1) filters
        else
          nlqLoop words fuel (i + 1) filters
      else if w = "containing" ∨ w = "contain" then
        if i + 3 < words.length ∧ lowerString (words.getD (i + 1) "") = "the"
            ∧ lowerString (words.getD (i + 2) "") = "letter" then
          let ch := words.getD (i + 3) ""
          if byteStrLen ch = 1 then
            nlqLoop words fuel (i + 4) { filters with contains_character := some ch }
          else
            nlqLoop words fuel (i + 1) filters
        else
          nlqLoop words fuel (i + 1) filters
      else if w = "first" then
        if i + 1 < words.length ∧ lowerString (words.getD (i + 1) "") = "vowel" then
          nlqLoop words fuel (i + 2) { filters with contains_character := some "a" }
        else
          nlqLoop words fuel (i + 1) filters
      else
        nlqLoop words fuel (i + 1) filters
    else filters

/-- Models `fn parse_natural_language_query` (it always returns `Ok`). -/
def parse_natural_language_query (query : String) : Except String FilterQuery :=
  let words := tokenize query
  .ok (nlqLoop words words.length 0 {})

/-- The filter a phrase translates to (projection of the always-`Ok`
translator result, for stating properties). -/
def translateFilters (query : String) : FilterQuery :=
  (parse_natural_language_query query).toOption.getD {}

/-- Models `fn filter_by_natural_language`: requires the `query` parameter,
translates it, and filters every record with the same loop body as
`fn get_all_strings` (no validation after the loop in this handler). -/
def filter_by_natural_language (db : Store) (queryParam : Option String) :
    Except StatusCode NaturalLanguageResponse :=
  match queryParam with
  | none => .error .badRequest
  | some query =>
    match parse_natural_language_query query with
    | .error _ => .error .badRequest
    | .ok parsed =>
      let filtered := (db.filter (fun p => recordMatches parsed p.2)).map (fun p => p.2)
      .ok { data := filtered, count := filtered.length,
            interpreted_query := { original := query, parsed_filters := parsed } }

/-! ### Store invariants and reachable states -/

/-- Store state after one `create_string` call: a Conflict error returns
before any mutation, so the state is unchanged in the error case. -/
def dbAfter (db : Store) (value : String) (now : Nat) : Store :=
  match create_string db value now with
  | .ok r => r.1
  | .error _ => db

/-- Number of records held for a given value. -/
def countRecords (db : Store) (value : String) : Nat :=
  (db.filter (fun p => p.2.value == value)).length

/-- Store states reachable from the empty startup state through the
mutating handlers (a failed create leaves the state unchanged, covered by
`dbAfter`; get/list never mutate). -/
inductive Reachable : Store → Prop
  | empty : Reachable []
  | create (db : Store) (value : String) (now : Nat) :
      Reachable db → Reachable (dbAfter db value now)
  | del (db : Store) (value : String) :
      Reachable db → Reachable (delete_string db value).2

/-- The content-addressing invariant of claim C4: every held record has
`id = properties.sha256_hash = sha256Hex value`, and is stored under its
id. -/
def StoreInv (db : Store) : Prop :=
  ∀ p ∈ db, p.2.id = p.2.properties.sha256_hash
    ∧ p.2.properties.sha256_hash = sha256Hex p.2.value
    ∧ p.1 = p.2.id

/-- Well-formedness: distinct map keys (a `HashMap` structural fact)
together with the content-addressing invariant. -/
def WFStore (db : Store) : Prop :=
  (db.map Prod.fst).Nodup ∧ StoreInv db


/-- Base-256 value of a byte list (little-endian); used only to compare
digests. -/
def natOfBytes : List Nat → Nat
  | [] => 0
  | b :: bs => b + 256 * natOfBytes bs

/-! ### Helper lemmas -/

theorem utf8EncodeChar_length_pos (c : Char) : 1 ≤ (utf8EncodeChar c).length := by
  unfold utf8EncodeChar
  by_cases h1 : c.toNat < 128 <;> by_cases h2 : c.toNat < 2048 <;>
    by_cases h3 : c.toNat < 65536 <;> simp [h1, h2, h3]

theorem byteStrLen_eq_one (s : String) (hb : byteStrLen s = 1) : s.data.length = 1 := by
  unfold byteStrLen utf8Bytes at hb
  match hd : s.data with
  | [] => rw [hd] at hb; simp at hb
  | [c] => rfl
  | c1 :: c2 :: t =>
    rw [hd] at hb
    have h1 := utf8EncodeChar_length_pos c1
    have h2 := utf8EncodeChar_length_pos c2
    simp only [List.map_cons, List.flatten_cons, List.length_append] at hb
    omega

theorem decodeHexChar_hexDigit : ∀ n < 16, decodeHexChar (hexDigit n) = some n := by decide

theorem isLowerHexChar_hexDigit : ∀ n < 16, isLowerHexChar (hexDigit n) = true := by decide

theorem hexDecode_hexBytes (bs : List Nat) (hb : ∀ b ∈ bs, b < 256) :
    hexDecodeBytes ((bs.map hexByte).flatten) = some bs := by
  induction bs with
  | nil => rfl
  | cons b tl ih =>
    have hblt : b < 256 := hb b (by simp)
    have hhi : b / 16 < 16 := by omega
    have hlo : b % 16 < 16 := by omega
    simp only [List.map_cons, List.flatten_cons, hexByte, List.cons_append, List.nil_append]
    rw [hexDecodeBytes, decodeHexChar_hexDigit _ hhi, decodeHexChar_hexDigit _ hlo,
      ih (fun x hx => hb x (by simp [hx]))]
    show some ((b / 16 * 16 + b % 16) :: tl) = some (b :: tl)
    have : b / 16 * 16 + b % 16 = b := by omega
    rw [this]

theorem hexBytes_lower (bs : List Nat) (hb : ∀ b ∈ bs, b < 256) :
    ∀ c ∈ (bs.map hexByte).flatten, isLowerHexChar c = true := by
  intro c hc
  rw [List.mem_flatten] at hc
  obtain ⟨l, hl, hcl⟩ := hc
  rw [List.mem_map] at hl
  obtain ⟨b, hbmem, rfl⟩ := hl
  have hblt : b < 256 := hb b hbmem
  simp only [hexByte, List.mem_cons, List.not_mem_nil, or_false] at hcl
  rcases hcl with rfl | rfl
  · exact isLowerHexChar_hexDigit _ (by omega)
  · exact isLowerHexChar_hexDigit _ (by omega)

theorem sha256_length (msg : List Nat) : (sha256 msg).length = 32 := by
  simp [sha256, digestBytes, wordBytes]

theorem sha256_bytes_lt (msg : List Nat) : ∀ b ∈ sha256 msg, b < 256 := by
  intro b hb
  simp only [sha256, digestBytes, wordBytes, List.mem_append, List.mem_cons,
    List.not_mem_nil, or_false] at hb
  omega

theorem natOfBytes_lt (l : List Nat) (hb : ∀ b ∈ l, b < 256) :
    natOfBytes l < 256 ^ l.length := by
  induction l with
  | nil => simp [natOfBytes]
  | cons b tl ih =>
    have h1 : b < 256 := hb b (by simp)
    have h2 := ih (fun x hx => hb x (by simp [hx]))
    simp only [natOfBytes, List.length_cons, pow_succ]
    calc b + 256 * natOfBytes tl < 256 + 256 * natOfBytes tl := by omega
    _ ≤ 256 * (natOfBytes tl + 1) := by ring_nf; omega
    _ ≤ 256 * 256 ^ tl.length := by
        have : natOfBytes tl + 1 ≤ 256 ^ tl.length := h2
        exact Nat.mul_le_mul_left _ this
    _ = 256 ^ tl.length * 256 := by ring

theorem natOfBytes_inj (l1 l2 : List Nat) (hlen : l1.length = l2.length)
    (h1 : ∀ b ∈ l1, b < 256) (h2 : ∀ b ∈ l2, b < 256)
    (heq : natOfBytes l1 = natOfBytes l2) : l1 = l2 := by
  induction l1 generalizing l2 with
  | nil =>
    cases l2 with
    | nil => rfl
    | cons b tl => simp at hlen
  | cons b tl ih =>
    cases l2 with
    | nil => simp at hlen
    | cons b2 tl2 =>
      have hb : b < 256 := h1 b (by simp)
      have hb2 : b2 < 256 := h2 b2 (by simp)
      simp only [natOfBytes] at heq
      have hbeq : b = b2 := by omega
      have htleq : natOfBytes tl = natOfBytes tl2 := by omega
      have := ih tl2 (by simpa using hlen)
        (fun x hx => h1 x (by simp [hx])) (fun x hx => h2 x (by simp [hx])) htleq
      rw [hbeq, this]

theorem analyze_sha (s : String) : (analyze_string s).sha256_hash = sha256Hex s := rfl

/-- The record `create_string` inserts for a value at a timestamp. -/
def mkRecord (value : String) (now : Nat) : StringData :=
  { id := sha256Hex value, value := value, properties := analyze_string value,
    created_at := now }

theorem create_string_eq (db : Store) (v : String) (now : Nat) :
    create_string db v now =
      if db.any (fun p => p.1 == sha256Hex v) then .error .conflict
      else .ok ((sha256Hex v, mkRecord v now) :: db, mkRecord v now) := rfl

theorem dbAfter_eq (db : Store) (v : String) (now : Nat) :
    dbAfter db v now =
      if db.any (fun p => p.1 == sha256Hex v) then db
      else (sha256Hex v, mkRecord v now) :: db := by
  unfold dbAfter
  rw [create_string_eq]
  by_cases hany : db.any (fun p => p.1 == sha256Hex v) = true
  · simp [hany]
  · simp only [Bool.not_eq_true] at hany
    simp [hany]

theorem delete_string_snd_eq (db : Store) (v : String) :
    (delete_string db v).2 =
      if db.any (fun p => p.1 == sha256Hex v) then
        db.filter (fun p => ¬ p.1 == sha256Hex v)
      else db := by
  unfold delete_string
  simp only [analyze_sha]
  by_cases hany : db.any (fun p => p.1 == sha256Hex v) = true
  · simp [hany]
  · simp only [Bool.not_eq_true] at hany
    simp [hany]

theorem reachable_wf (db : Store) (h : Reachable db) : WFStore db := by
  induction h with
  | empty => exact ⟨List.nodup_nil, fun p hp => absurd hp (List.not_mem_nil p)⟩
  | create db v now _ ih =>
    rw [dbAfter_eq]
    by_cases hany : db.any (fun p => p.1 == sha256Hex v) = true
    · simpa [hany] using ih
    · simp only [Bool.not_eq_true] at hany
      simp only [hany, Bool.false_eq_true, if_false]
      obtain ⟨hnd, hinv⟩ := ih
      constructor
      · simp only [List.map_cons, List.nodup_cons]
        refine ⟨?_, hnd⟩
        intro hmem
        rw [List.mem_map] at hmem
        obtain ⟨p, hp, hpk⟩ := hmem
        have := List.any_eq_false.mp hany p hp
        simp only [beq_iff_eq] at this
        exact this hpk
      · intro p hp
        rcases List.mem_cons.mp hp with rfl | hp'
        · exact ⟨rfl, rfl, rfl⟩
        · exact hinv p hp'
  | del db v _ ih =>
    rw [delete_string_snd_eq]
    obtain ⟨hnd, hinv⟩ := ih
    by_cases hany : db.any (fun p => p.1 == sha256Hex v) = true
    · simp only [hany, if_true]
      refine ⟨?_, ?_⟩
      · exact hnd.sublist ((List.filter_sublist db).map Prod.fst)
      · intro p hp
        exact hinv p (List.mem_of_mem_filter hp)
    · simp only [Bool.not_eq_true] at hany
      simp only [hany, Bool.false_eq_true, if_false]
      exact ⟨hnd, hinv⟩


theorem nlqLoop_pal_mono (words : List String) (fuel : Nat) :
    ∀ (i : Nat) (f : FilterQuery), f.is_palindrome = some true →
      (nlqLoop words fuel i f).is_palindrome = some true := by
  induction fuel with
  | zero => intro i f hf; simpa [nlqLoop] using hf
  | succ n ih =>
    intro i f hf
    rw [nlqLoop]
    simp only []
    split
    case isFalse => exact hf
    case isTrue hi =>
      split
      · exact ih _ _ hf
      split
      · split
        · exact ih _ _ (by simpa using hf)
        · exact ih _ _ hf
      split
      · split
        · split
          · exact ih _ _ rfl
          · exact ih _ _ hf
        · exact ih _ _ rfl
      split
      · split
        · split
          · exact ih _ _ (by simpa using hf)
          · exact ih _ _ hf
        · exact ih _ _ hf
      split
      · split
        · split
          · exact ih _ _ (by simpa using hf)
          · exact ih _ _ hf
        · exact ih _ _ hf
      split
      · split
        · exact ih _ _ (by simpa using hf)
        · exact ih _ _ hf
      exact ih _ _ hf

theorem nlqLoop_contains_inv (words : List String) (fuel : Nat) :
    ∀ (i : Nat) (f : FilterQuery),
      (∀ ch, f.contains_character = some ch → byteStrLen ch = 1) →
      ∀ ch, (nlqLoop words fuel i f).contains_character = some ch → byteStrLen ch = 1 := by
  induction fuel with
  | zero => intro i f hf; simpa [nlqLoop] using hf
  | succ n ih =>
    intro i f hf
    rw [nlqLoop]
    simp only []
    split
    case isFalse => exact hf
    case isTrue hi =>
      split
      · exact ih _ _ hf
      split
      · split
        · exact ih _ _ (fun ch hch => hf ch (by simpa using hch))
        · exact ih _ _ hf
      split
      · split
        · split
          · exact ih _ _ (fun ch hch => hf ch (by simpa using hch))
          · exact ih _ _ hf
        · exact ih _ _ (fun ch hch => hf ch (by simpa using hch))
      split
      · split
        · split
          · exact ih _ _ (fun ch hch => hf ch (by simpa using hch))
          · exact ih _ _ hf
        · exact ih _ _ hf
      split
      · split
        · split
          · rename_i hguard hlen
            refine ih _ _ (fun ch hch => ?_)
            have h2 : some (words.getD (i + 3) "") = some ch := hch
            injection h2 with h3
            rw [← h3]
            exact hlen
          · exact ih _ _ hf
        · exact ih _ _ hf
      split
      · split
        · refine ih _ _ (fun ch hch => ?_)
          have h2 : some "a" = some ch := hch
          injection h2 with h3
          rw [← h3]
          rfl
        · exact ih _ _ hf
      exact ih _ _ hf

theorem nlqLoop_longer_step (words : List String) (n i : Nat) (f : FilterQuery)
    (hi : i < words.length)
    (hl : lowerString (words.getD i "") = "longer")
    (hg : i + 2 < words.length)
    (ht : lowerString (words.getD (i + 1) "") = "than") :
    (∀ num, parseUsize (words.getD (i + 2) "") = some num →
      nlqLoop words (n + 1) i f =
        nlqLoop words n (i + 3) { f with min_length := some ((num + 1) % 2 ^ 64) })
    ∧ (parseUsize (words.getD (i + 2) "") = none →
      nlqLoop words (n + 1) i f = nlqLoop words n (i + 1) f) := by
  constructor
  · intro num hp
    rw [nlqLoop]
    simp only [hl, ht]
    rw [if_pos hi]
    rw [if_neg (by decide : ¬ ("longer" : String) = "all")]
    rw [if_neg (by decide : ¬ ("longer" : String) = "single")]
    rw [if_neg (by decide : ¬ (("longer" : String) = "palindrome" ∨ ("longer" : String) = "palindromic"))]
    rw [if_pos trivial]
    rw [if_pos ⟨hg, trivial⟩]
    rw [hp]
  · intro hp
    rw [nlqLoop]
    simp only [hl, ht]
    rw [if_pos hi]
    rw [if_neg (by decide : ¬ ("longer" : String) = "all")]
    rw [if_neg (by decide : ¬ ("longer" : String) = "single")]
    rw [if_neg (by decide : ¬ (("longer" : String) = "palindrome" ∨ ("longer" : String) = "palindromic"))]
    rw [if_pos trivial]
    rw [if_pos ⟨hg, trivial⟩]
    rw [hp]

theorem tokenize_pal_first (phrase w : String) (rest : List String)
    (hw : tokenize phrase = w :: rest)
    (hcase : lowerString w = "palindrome" ∨ lowerString w = "palindromic")
    (hlen : (tokenize phrase).length < 2 ^ 64) :
    (nlqLoop (tokenize phrase) (tokenize phrase).length 0 {}).is_palindrome = some true := by
  rw [hw] at hlen ⊢
  have hnone : (w :: rest).get? (wrapSub1 0) = none := by
    apply List.get?_eq_none.mpr
    unfold wrapSub1
    have : (0 + (2 ^ 64 - 1)) % 2 ^ 64 = 2 ^ 64 - 1 := Nat.mod_eq_of_lt (by norm_num)
    rw [this]
    omega
  simp only [List.length_cons]
  rw [nlqLoop]
  simp only [List.getD_cons_zero]
  rw [if_pos (show 0 < (w :: rest).length by simp)]
  rcases hcase with hc | hc
  · simp only [hc]
    rw [if_neg (by decide : ¬ ("palindrome" : String) = "all")]
    rw [if_neg (by decide : ¬ ("palindrome" : String) = "single")]
    rw [if_pos (Or.inl trivial)]
    rw [hnone]
    exact nlqLoop_pal_mono _ _ _ _ rfl
  · simp only [hc]
    rw [if_neg (by decide : ¬ ("palindromic" : String) = "all")]
    rw [if_neg (by decide : ¬ ("palindromic" : String) = "single")]
    rw [if_pos (Or.inr trivial)]
    rw [hnone]
    exact nlqLoop_pal_mono _ _ _ _ rfl

/-! ### Claim theorems -/

/-- C2: the translator yields exactly `is_palindrome = true` for
"all palindromic strings", exactly `min_length = 6` for "strings longer
than 5", exactly `contains_character = "z"` for "strings containing the
letter z", and the empty filter for "non palindrome". -/
theorem spec_c2_translator_examples :
    parse_natural_language_query "all palindromic strings" =
      .ok { is_palindrome := some true } ∧
    parse_natural_language_query "strings longer than 5" =
      .ok { min_length := some 6 } ∧
    parse_natural_language_query "strings containing the letter z" =
      .ok { contains_character := some "z" } ∧
    parse_natural_language_query "non palindrome" = .ok {} :=
  ⟨rfl, rfl, rfl, rfl⟩

/-- C3: a `contains_character` filter value that is not exactly one
character makes the structured list operation fail with the
InvalidArgument condition (HTTP 400 in the source), for every store
contents, zero records included; no record list is ever returned. -/
theorem spec_c3_invalid_contains (db : Store) (q : FilterQuery) (ch : String)
    (hc : q.contains_character = some ch) (hne : ch.data.length ≠ 1) :
    get_all_strings db q = .error .badRequest := by
  have hb : byteStrLen ch ≠ 1 := fun h1 => hne (byteStrLen_eq_one ch h1)
  unfold get_all_strings
  rw [hc]
  simp only []
  rw [if_pos hb]

/-- Witness for C3 at the spec's own example `"ab"` and the empty store. -/
theorem spec_c3_witness :
    ({ contains_character := some "ab" } : FilterQuery).contains_character = some "ab" ∧
    ("ab" : String).data.length ≠ 1 ∧
    get_all_strings [] { contains_character := some "ab" } = .error .badRequest :=
  ⟨rfl, by decide, spec_c3_invalid_contains [] _ "ab" rfl (by decide)⟩

/-- C8: `is_palindrome` holds exactly when the lower-cased character
sequence equals its own reverse; nothing is stripped, so a spaced
palindrome phrase is not palindromic while case is ignored. -/
theorem spec_c8_palindrome_def :
    (∀ s : String, (analyze_string s).is_palindrome = true ↔
      (lowerString s).data = (lowerString s).data.reverse) ∧
    (analyze_string "never odd or even").is_palindrome = false ∧
    (analyze_string "Aba").is_palindrome = true := by
  refine ⟨fun s => ?_, rfl, rfl⟩
  show ((lowerString s).data == (lowerString s).data.reverse) = true ↔ _
  exact beq_iff_eq

/-- C7: the stored hash is the lowercase hexadecimal encoding of the
SHA-256 digest of the string's raw UTF-8 bytes (the hex decodes back to
exactly that digest and every digit is lowercase hex), and `length` is
the byte length, not the character count — shown concretely on a
multi-byte example. Determinism is inherent: the analyzer is a pure
function of `s`. -/
theorem spec_c7_hash_and_length :
    (∀ s : String,
      hexDecodeBytes ((analyze_string s).sha256_hash).data = some (sha256 (utf8Bytes s)) ∧
      (∀ c ∈ ((analyze_string s).sha256_hash).data, isLowerHexChar c = true) ∧
      (analyze_string s).length = (utf8Bytes s).length) ∧
    (analyze_string "héllo").length = 6 ∧ ("héllo" : String).data.length = 5 := by
  refine ⟨fun s => ⟨?_, ?_, rfl⟩, by decide, by decide⟩
  · exact hexDecode_hexBytes _ (sha256_bytes_lt _)
  · intro c hc
    exact hexBytes_lower _ (sha256_bytes_lt _) c hc

/-- C10: every filter the translator produces carries a
`contains_character` of byte length 1, hence of exactly one character;
consequently the natural-language handler's skip branch for longer
values is dead and that endpoint never needs an InvalidArgument result
(it succeeds for every phrase and store). -/
theorem spec_c10_translator_single_char (phrase : String) :
    (∀ ch, (translateFilters phrase).contains_character = some ch →
      byteStrLen ch = 1 ∧ ch.data.length = 1) ∧
    (∀ db : Store, (filter_by_natural_language db (some phrase)).isOk = true) := by
  constructor
  · intro ch hch
    have h1 : byteStrLen ch = 1 := by
      refine nlqLoop_contains_inv (tokenize phrase) (tokenize phrase).length 0 {}
        (fun ch0 hch0 => ?_) ch hch
      exact Option.noConfusion hch0
    exact ⟨h1, byteStrLen_eq_one ch h1⟩
  · intro db
    rfl

/-- Witness for C10 on the spec's letter-z example. -/
theorem spec_c10_witness :
    byteStrLen "z" = 1 ∧ ("z" : String).data.length = 1 :=
  (spec_c10_translator_single_char "containing the letter z").1 "z" rfl

/-- C1: when `palindrome` or `palindromic` is the first token of a phrase,
the wrapped lookbehind index falls outside the token vector, `get`
returns no preceding token, and the translator sets
`is_palindrome = true` and returns normally (release-profile wrapping
arithmetic; the bound on the token count holds for every real `Vec`). -/
theorem spec_c1_first_token_palindrome (phrase : String)
    (h1 : ∃ w rest, tokenize phrase = w :: rest ∧
      (lowerString w = "palindrome" ∨ lowerString w = "palindromic"))
    (h2 : (tokenize phrase).length < 2 ^ 64) :
    ∃ f, parse_natural_language_query phrase = .ok f ∧ f.is_palindrome = some true := by
  obtain ⟨w, rest, hw, hcase⟩ := h1
  exact ⟨_, rfl, tokenize_pal_first phrase w rest hw hcase h2⟩

/-- Witness for C1 on the one-token phrase "palindrome". -/
theorem spec_c1_witness :
    (∃ w rest, tokenize "palindrome" = w :: rest ∧
      (lowerString w = "palindrome" ∨ lowerString w = "palindromic")) ∧
    (tokenize "palindrome").length < 2 ^ 64 ∧
    ∃ f, parse_natural_language_query "palindrome" = .ok f ∧
      f.is_palindrome = some true :=
  ⟨⟨"palindrome", [], rfl, Or.inl rfl⟩, by decide,
    spec_c1_first_token_palindrome "palindrome"
      ⟨"palindrome", [], rfl, Or.inl rfl⟩ (by decide)⟩

/-- C9 counterexample: `18446744073709551615` parses as a non-negative
integer (it is `usize::MAX`), yet the translator stores
`min_length = 0`, not `N + 1`: the increment wraps in `usize`. -/
theorem spec_c9_counterexample :
    parse_natural_language_query "longer than 18446744073709551615" =
      .ok { min_length := some 0 } ∧
    (0 : Nat) ≠ 18446744073709551615 + 1 :=
  ⟨rfl, by decide⟩

/-- C9 (amended): at a cursor position starting `longer than <N>`, a
parsed `<N>` sets `min_length = (N + 1) mod 2^64` — equal to `N + 1`
except at `N = 2^64 - 1`, where it wraps to 0 — and consumes three
tokens; a failed parse skips the pattern, advancing the cursor by one
with no field set. -/
theorem spec_c9_longer_rule (words : List String) (n i : Nat) (f : FilterQuery)
    (hi : i < words.length)
    (hl : lowerString (words.getD i "") = "longer")
    (hg : i + 2 < words.length)
    (ht : lowerString (words.getD (i + 1) "") = "than") :
    (∀ num, parseUsize (words.getD (i + 2) "") = some num →
      nlqLoop words (n + 1) i f =
        nlqLoop words n (i + 3) { f with min_length := some ((num + 1) % 2 ^ 64) })
    ∧ (parseUsize (words.getD (i + 2) "") = none →
      nlqLoop words (n + 1) i f = nlqLoop words n (i + 1) f) :=
  nlqLoop_longer_step words n i f hi hl hg ht

/-- Witness for C9's amended rule on `longer than 5`. -/
theorem spec_c9_witness :
    nlqLoop ["longer", "than", "5"] 3 0 {} =
      nlqLoop ["longer", "than", "5"] 2 3 { min_length := some ((5 + 1) % 2 ^ 64) } :=
  (spec_c9_longer_rule ["longer", "than", "5"] 2 0 {} (by decide) rfl (by decide) rfl).1
    5 rfl

/-- C6: after a successful create (the id is free in the store), reading
back by the same value succeeds and returns the created record, whose
`value` is the input and whose `id` is the analyzer's hash. -/
theorem spec_c6_roundtrip (db : Store) (s : String) (now : Nat)
    (hfree : db.any (fun p => p.1 == sha256Hex s) = false) :
    ∃ db2 d, create_string db s now = .ok (db2, d) ∧
      get_string db2 s = .ok d ∧ d.value = s ∧
      d.id = (analyze_string s).sha256_hash := by
  have hcr : create_string db s now =
      .ok ((sha256Hex s, mkRecord s now) :: db, mkRecord s now) := by
    rw [create_string_eq, if_neg (by simp [hfree])]
  refine ⟨_, _, hcr, ?_, rfl, rfl⟩
  unfold get_string
  simp only [analyze_sha]
  rw [List.find?_cons_of_pos _ (by simp)]

/-- Witness for C6: create then read back "a" on the empty store. -/
theorem spec_c6_witness :
    ∃ db2 d, create_string [] "a" 0 = .ok (db2, d) ∧
      get_string db2 "a" = .ok d ∧ d.value = "a" ∧
      d.id = (analyze_string "a").sha256_hash :=
  spec_c6_roundtrip [] "a" 0 rfl

/-- C4: every reachable store state satisfies the content-addressing
invariant — each held record has `id = properties.sha256_hash =
sha256Hex value` and is keyed by its id — so the invariant holds
initially and is preserved by every operation (get and list never
change the state). -/
theorem spec_c4_store_invariant (db : Store) (h : Reachable db) : StoreInv db :=
  (reachable_wf db h).2

/-- Witness for C4 at the empty startup store. -/
theorem spec_c4_witness : StoreInv [] :=
  spec_c4_store_invariant [] Reachable.empty

theorem sha256Hex_exists_collision :
    ∃ s t : String, s ≠ t ∧ sha256Hex s = sha256Hex t := by
  have hfin : ∀ s : String, natOfBytes (sha256 (utf8Bytes s)) < 256 ^ 32 := by
    intro s
    have h := natOfBytes_lt (sha256 (utf8Bytes s)) (sha256_bytes_lt _)
    rwa [sha256_length] at h
  obtain ⟨m, n, hmn, hfeq⟩ := Finite.exists_ne_map_eq_of_infinite
    (fun k : ℕ =>
      (⟨natOfBytes (sha256 (utf8Bytes (String.mk (List.replicate k 'a')))), hfin _⟩ :
        Fin (256 ^ 32)))
  simp only [Fin.mk.injEq] at hfeq
  refine ⟨String.mk (List.replicate m 'a'), String.mk (List.replicate n 'a'), ?_, ?_⟩
  · intro hcon
    apply hmn
    have hdata : List.replicate m 'a' = List.replicate n 'a' := congrArg String.data hcon
    have hlen := congrArg List.length hdata
    simpa using hlen
  · have hdig := natOfBytes_inj _ _ (by rw [sha256_length, sha256_length])
      (sha256_bytes_lt _) (sha256_bytes_lt _) hfeq
    unfold sha256Hex
    rw [hdig]

theorem countRecords_eq_one (s : String) :
    ∀ db : Store, (db.map Prod.fst).Nodup →
      (∀ p ∈ db, p.2.value = s → p.1 = sha256Hex s) →
      (∃ p ∈ db, p.2.value = s) → countRecords db s = 1 := by
  intro db
  induction db with
  | nil =>
    intro _ _ hmem
    simp at hmem
  | cons q rest ih =>
    intro hnd hval hmem
    simp only [List.map_cons, List.nodup_cons] at hnd
    obtain ⟨hq, hndr⟩ := hnd
    by_cases hv : q.2.value = s
    · have hrest0 : rest.filter (fun p => p.2.value == s) = [] := by
        rw [List.filter_eq_nil_iff]
        intro p hp
        simp only [beq_iff_eq]
        intro hps
        apply hq
        have hk : p.1 = sha256Hex s := hval p (by simp [hp]) hps
        have hqk : q.1 = sha256Hex s := hval q (by simp) hv
        rw [← hqk] at hk
        exact List.mem_map.mpr ⟨p, hp, hk⟩
      unfold countRecords
      rw [List.filter_cons]
      simp [hv, hrest0]
    · unfold countRecords
      rw [List.filter_cons]
      have hv2 : (q.2.value == s) = false := by simp [hv]
      simp only [hv2, Bool.false_eq_true, if_false]
      apply ih hndr (fun p hp hps => hval p (by simp [hp]) hps)
      obtain ⟨p, hp, hps⟩ := hmem
      rcases List.mem_cons.mp hp with rfl | hpr
      · exact absurd hps hv
      · exact ⟨p, hpr, hps⟩

/-- C5 counterexample (negation of the claim as stated): there is a
reachable store and a value `s` for which both creates yield Conflict
and the store is left unchanged, yet the store does not contain exactly
one record for `s` — it holds a colliding record with a different
value. SHA-256 collisions exist by cardinality, though none is
concretely known; this is exactly the gap between the claim's "every
store state" and content addressing. -/
theorem spec_c5_counterexample :
    ∃ (db : Store) (s : String),
      Reachable db ∧
      create_string (dbAfter db s 0) s 1 = .error .conflict ∧
      dbAfter (dbAfter db s 0) s 1 = dbAfter db s 0 ∧
      countRecords (dbAfter db s 0) s ≠ 1 := by
  obtain ⟨s, t, hne, hh⟩ := sha256Hex_exists_collision
  have h0 : dbAfter [] t 0 = [(sha256Hex t, mkRecord t 0)] := by
    rw [dbAfter_eq]
    simp
  have hreach : Reachable [(sha256Hex t, mkRecord t 0)] := by
    rw [← h0]
    exact Reachable.create [] t 0 Reachable.empty
  have hanyt : ([(sha256Hex t, mkRecord t 0)] : Store).any
      (fun p => p.1 == sha256Hex s) = true := by
    simp [hh]
  have hafter : dbAfter [(sha256Hex t, mkRecord t 0)] s 0 =
      [(sha256Hex t, mkRecord t 0)] := by
    rw [dbAfter_eq, if_pos hanyt]
  have hconf : create_string [(sha256Hex t, mkRecord t 0)] s 1 = .error .conflict := by
    rw [create_string_eq, if_pos hanyt]
  refine ⟨[(sha256Hex t, mkRecord t 0)], s, hreach, ?_, ?_, ?_⟩
  · rw [hafter]
    exact hconf
  · rw [hafter]
    unfold dbAfter
    rw [hconf]
  · rw [hafter]
    unfold countRecords
    have hvf : ((mkRecord t 0).value == s) = false := by
      simp only [beq_eq_false_iff_ne]
      show t ≠ s
      exact fun hts => hne hts.symm
    simp [hvf]

/-- C5 (amended): for every well-formed store holding no record whose
key collides with `hash(s)` under a different value, two creates of `s`
yield Conflict on the second call, the failed create leaves the store
unchanged, and afterwards the store holds exactly one record for `s`. -/
theorem spec_c5_amended (db : Store) (s : String) (t1 t2 : Nat)
    (hwf : WFStore db)
    (hnc : ∀ p ∈ db, p.1 = sha256Hex s → p.2.value = s) :
    create_string (dbAfter db s t1) s t2 = .error .conflict ∧
    dbAfter (dbAfter db s t1) s t2 = dbAfter db s t1 ∧
    countRecords (dbAfter db s t1) s = 1 := by
  obtain ⟨hnd, hinv⟩ := hwf
  have hval : ∀ p ∈ db, p.2.value = s → p.1 = sha256Hex s := by
    intro p hp hps
    obtain ⟨h1, h2, h3⟩ := hinv p hp
    rw [h3, h1, h2, hps]
  by_cases hany : db.any (fun p => p.1 == sha256Hex s) = true
  · have hafter : dbAfter db s t1 = db := by rw [dbAfter_eq, if_pos hany]
    have hconf : create_string db s t2 = .error .conflict := by
      rw [create_string_eq, if_pos hany]
    refine ⟨by rw [hafter]; exact hconf, ?_, ?_⟩
    · rw [hafter]
      unfold dbAfter
      rw [hconf]
    · rw [hafter]
      apply countRecords_eq_one s db hnd hval
      obtain ⟨p, hp, hpk⟩ := List.any_eq_true.mp hany
      simp only [beq_iff_eq] at hpk
      exact ⟨p, hp, hnc p hp hpk⟩
  · simp only [Bool.not_eq_true] at hany
    have hafter : dbAfter db s t1 = (sha256Hex s, mkRecord s t1) :: db := by
      rw [dbAfter_eq, if_neg (by simp [hany])]
    have hconf : create_string ((sha256Hex s, mkRecord s t1) :: db) s t2 =
        .error .conflict := by
      rw [create_string_eq, if_pos (by simp)]
    refine ⟨by rw [hafter]; exact hconf, ?_, ?_⟩
    · rw [hafter]
      unfold dbAfter
      rw [hconf]
    · rw [hafter]
      apply countRecords_eq_one s _ ?_ ?_ ?_
      · simp only [List.map_cons, List.nodup_cons]
        refine ⟨?_, hnd⟩
        intro hm
        rw [List.mem_map] at hm
        obtain ⟨p, hp, hpk⟩ := hm
        have hpf := List.any_eq_false.mp hany p hp
        simp only [beq_iff_eq] at hpf
        exact hpf hpk
      · intro p hp hps
        rcases List.mem_cons.mp hp with rfl | hp'
        · rfl
        · exact hval p hp' hps
      · exact ⟨(sha256Hex s, mkRecord s t1), by simp, rfl⟩

/-- Witness for C5's amended statement on the empty store and "a". -/
theorem spec_c5_witness :
    WFStore [] ∧
    create_string (dbAfter [] "a" 0) "a" 1 = .error .conflict ∧
    dbAfter (dbAfter [] "a" 0) "a" 1 = dbAfter [] "a" 0 ∧
    countRecords (dbAfter [] "a" 0) "a" = 1 :=
  ⟨⟨List.nodup_nil, fun p hp => absurd hp (List.not_mem_nil p)⟩,
    spec_c5_amended [] "a" 0 1
      ⟨List.nodup_nil, fun p hp => absurd hp (List.not_mem_nil p)⟩
      (fun p hp => absurd hp (List.not_mem_nil p))⟩
